/-
Verification development for the AI code debugger / auto-fixer (src/app.py).

Python strings are shallowly embedded as `List Char` (alias `Str`); the
filesystem seen by the fix-applier is embedded as a partial map from paths
to file contents.  Machine details deliberately out of scope of the model:
`str.strip` is modelled over the ASCII whitespace characters, `\w` of the
regexes over ASCII alphanumerics, and path separators as `/`; every input
used in a concrete theorem below is ASCII, where the model agrees with
CPython exactly.
-/
import Mathlib

set_option autoImplicit false

abbrev Str := List Char

/-- Python whitespace (ASCII fragment), the class stripped by `str.strip()`
and matched by `\s`. -/
def isPySpace (c : Char) : Bool :=
  c = ' ' || c = '\t' || c = '\n' || c = '\r' || c = '\x0b' || c = '\x0c'

/-- Right strip: `s.rstrip()` over `isPySpace`. -/
def rstrip (l : Str) : Str := (l.reverse.dropWhile isPySpace).reverse

/-- `s.strip()`: drop leading and trailing whitespace. -/
def pyStrip (l : Str) : Str := rstrip (l.dropWhile isPySpace)

/-- `s.startswith(p)`. -/
def startsWithL (p s : Str) : Bool := decide (s.take p.length = p)

/-- `s.endswith(p)`. -/
def endsWithL (p s : Str) : Bool := startsWithL p.reverse s.reverse

/-- Drop the last `n` characters. -/
def dropRightL (n : Nat) (l : Str) : Str := (l.reverse.drop n).reverse

/-- `s.lower()` (ASCII). -/
def lowerL (l : Str) : Str := l.map Char.toLower

/-- Final path component (text after the last `/`), as used by
`pathlib.Path(...).name`. -/
def lastComp (p : Str) : Str := (p.reverse.takeWhile (fun c => ¬ c = '/')).reverse

/-- Split a path at `/` separators, modelling `pathlib.Path(...).parts`
closely enough for membership tests of directory names. -/
def splitSlash : Str → List Str
  | [] => [[]]
  | c :: rest =>
    let r := splitSlash rest
    if c = '/' then [] :: r
    else
      match r with
      | [] => [[c]]
      | h :: t => (c :: h) :: t

/-- `Path(file_path).suffix.lstrip(".") or "txt"` from `build_file_section`
(src/app.py line 105): the extension of the final component without its dot,
or `txt` when the component has no extension (no dot, dot first, or dot
last). -/
def fileSuffix (p : Str) : Str :=
  let name := lastComp p
  let rev := name.reverse
  let before := rev.takeWhile (fun c => ¬ c = '.')
  if before.length = name.length then "txt".toList
  else if before.length = 0 then "txt".toList
  else if before.length + 1 = name.length then "txt".toList
  else before.reverse

/-- `SUPPORTED_SUFFIXES` (src/app.py line 32). -/
def SUPPORTED_SUFFIXES : List Str :=
  [".py".toList, ".js".toList, ".jsx".toList, ".ts".toList,
   ".java".toList, ".cpp".toList, ".html".toList, ".css".toList]

/-- The deny-listed directory names of `get_code_files` (src/app.py line 60). -/
def IGNORED_DIRS : List Str :=
  ["node_modules".toList, ".git".toList, "__pycache__".toList,
   "dist".toList, "build".toList]

/-- `file.lower().endswith(SUPPORTED_SUFFIXES)` applied to the basename. -/
def hasSupportedSuffix (p : Str) : Bool :=
  SUPPORTED_SUFFIXES.any (fun suf => endsWithL suf (lowerL (lastComp p)))

/-- `any(ignored in Path(path).parts for ignored in (...))`. -/
def pathIgnored (p : Str) : Bool :=
  IGNORED_DIRS.any (fun d => (splitSlash p).contains d)

/-- Python `<` on strings: lexicographic comparison by code point. -/
def lexLe : Str → Str → Bool
  | [], _ => true
  | _ :: _, [] => false
  | a :: as, b :: bs => if a = b then lexLe as bs else decide (a.val < b.val)

/-- `list.sort()` on paths: a stable insertion sort under `lexLe`; for the
total order on strings this produces the same list as CPython's sort. -/
def insertSorted (x : Str) : List Str → List Str
  | [] => [x]
  | y :: ys => if lexLe x y then x :: y :: ys else y :: insertSorted x ys

def sortPaths (l : List Str) : List Str := l.foldr insertSorted []

/-- `get_code_files` (src/app.py lines 54-64).  The `os.walk` enumeration is
taken as input (`walk` lists the full paths of all files under the root, in
walk order); the function keeps paths whose basename has a supported suffix
and no deny-listed directory part, then sorts. -/
def get_code_files (walk : List Str) : List Str :=
  sortPaths (walk.filter (fun p => hasSupportedSuffix p && !pathIgnored p))

/-- `build_file_section` (src/app.py lines 104-106):
`f"### FILE PATH: {file_path}\n||{suffix}\n{code}\n||\n\n"` with `||` the
triple backtick fence. -/
def build_file_section (file_path : Str) (code : Str) : Str :=
  "### FILE PATH: ".toList ++ file_path ++ ['\n'] ++ "```".toList
    ++ fileSuffix file_path ++ ['\n'] ++ code ++ "\n```\n\n".toList

/-- The per-file section a fixed content map assigns to a file. -/
def secF (contents : Str → Str) (f : Str) : Str :=
  build_file_section f (contents f)

/-- `"\n".join(current)` from `chunk_files`. -/
def joinNl : List Str → Str
  | [] => []
  | [x] => x
  | x :: y :: t => x ++ '\n' :: joinNl (y :: t)

/-- The accumulation loop of `chunk_files` (src/app.py lines 114-129):
`cur` is `current` (the sections of the open batch), `curf` is
`current_files`, `len` is `length`.  The dict `file_contents` is modelled as
a total map, as `run_pipeline` populates it for every collected file. -/
def chunkGo (contents : Str → Str) (max_chars : Int) :
    List Str → List Str → List Str → Nat → List Str × List (List Str)
  | [], cur, curf, _ =>
    if cur = [] then ([], []) else ([joinNl cur], [curf])
  | f :: rest, cur, curf, len =>
    let s := secF contents f
    if cur ≠ [] ∧ max_chars < (len : Int) + (s.length : Int) then
      let r := chunkGo contents max_chars rest [s] [f] s.length
      (joinNl cur :: r.1, curf :: r.2)
    else
      chunkGo contents max_chars rest (cur ++ [s]) (curf ++ [f]) (len + s.length)

/-- `chunk_files` (src/app.py lines 108-130): returns the batch texts and the
per-batch file lists. -/
def chunk_files (files : List Str) (contents : Str → Str) (max_chars : Int) :
    List Str × List (List Str) :=
  chunkGo contents max_chars files [] [] 0

/-- `[\w+-]` of the first fence regex, with `\w` read over ASCII. -/
def isWordPM (c : Char) : Bool :=
  c.isAlphanum || c = '_' || c = '+' || c = '-'

/-- `re.sub(r"^ fence [\w+-]*\n?", "", s)` (src/app.py line 88): without
`re.MULTILINE` the `^` anchors at the start of the string only, so the
substitution removes at most one leading fence, its greedy language tag and
one optional newline. -/
def regex1 (s : Str) : Str :=
  if startsWithL "```".toList s then
    let r := (s.drop 3).dropWhile isWordPM
    match r with
    | '\n' :: r2 => r2
    | _ => r
  else s

/-- The end-anchored part of `re.sub(r"\n? fence $", "", s)` when `$` sits at
the very end of the string: the greedy `\n?` makes the leftmost match take a
preceding newline together with the closing fence. -/
def regex2core (t : Str) : Str :=
  if endsWithL "\n```".toList t then dropRightL 4 t
  else if endsWithL "```".toList t then dropRightL 3 t
  else t

/-- `re.sub(r"\n? fence $", "", s)` (src/app.py line 89): in Python `$` also
matches just before a single trailing newline, so for a string ending in a
newline the closing fence is looked for in front of that newline, which is
kept. -/
def regex2 (s : Str) : Str :=
  if endsWithL ['\n'] s then regex2core (dropRightL 1 s) ++ ['\n']
  else regex2core s

/-- The label alternation `(Fixed code|Corrected code|Suggested fix)` of the
third substitution (src/app.py line 91). -/
def LABELS : List Str :=
  ["Fixed code".toList, "Corrected code".toList, "Suggested fix".toList]

/-- Case-insensitive prefix test (`re.IGNORECASE`, ASCII). -/
def ciPre : Str → Str → Bool
  | [], _ => true
  | _ :: _, [] => false
  | a :: as, b :: bs => a.toLower = b.toLower && ciPre as bs

/-- First label of the alternation matching at the front of `t`, with the
rest of `t` after it. -/
def findLabel (t : Str) : Option Str :=
  LABELS.foldr
    (fun lab acc => if ciPre lab t then some (t.drop lab.length) else acc) none

/-- `re.sub(r"^\s*(Fixed code|Corrected code|Suggested fix)\s*:\s*", "", s,
flags=re.IGNORECASE)` (src/app.py line 91): anchored at the start; if after
optional whitespace a label followed by optional whitespace and a colon is
found, everything up to and including the whitespace after the colon is
removed, otherwise the string is unchanged. -/
def stripLabel (s : Str) : Str :=
  let t := s.dropWhile isPySpace
  match findLabel t with
  | none => s
  | some rest =>
    match rest.dropWhile isPySpace with
    | ':' :: r2 => r2.dropWhile isPySpace
    | _ => s

/-- `clean_code_fences` (src/app.py lines 82-92): empty text maps to the
empty string; otherwise strip, remove a leading fence, a trailing fence and
a leading label, then strip again and append one newline. -/
def clean_code_fences (text : Str) : Str :=
  if text = [] then []
  else pyStrip (stripLabel (regex2 (regex1 (pyStrip text)))) ++ ['\n']

/-- The filesystem seen by the fix applier: a partial map from path to
content. -/
def FS : Type := Str → Option Str

/-- The sibling backup path `file_path + ".bak"`. -/
def bakPath (p : Str) : Str := p ++ ['.', 'b', 'a', 'k']

/-- `safe_backup` (src/app.py lines 74-80): copy `p` to `p + ".bak"` only
when the backup does not exist yet and `p` does; the swallowed I/O errors of
the Python code are outside the model. -/
def safe_backup (p : Str) (fs : FS) : FS :=
  if (fs (bakPath p)).isNone ∧ (fs p).isSome then
    fun q => if q = bakPath p then fs p else fs q
  else fs

/-- `write_file` (src/app.py lines 94-102): back up first, then overwrite
`p` with the cleaned code. -/
def write_file (p : Str) (new_code : Str) (fs : FS) : FS :=
  let fs1 := safe_backup p fs
  fun q => if q = p then some (clean_code_fences new_code) else fs1 q

/-- Behaviour of a constructed model handle: for a prompt, either raise
(`Except.error`) or return a response whose `.text` may be `None`. -/
def GenModel : Type := Str → Except Str (Option Str)

/-- The message of the `RuntimeError` raised by `generate_content` when the
global `MODEL` is `None` (src/app.py line 134). -/
def unavailableMsg : Str :=
  "Gemini model unavailable. Check API key or model name.".toList

/-- `generate_content` (src/app.py lines 132-139).  `Except.error` models an
exception escaping the function: with no model handle a `RuntimeError` is
raised outside the `try`, while a failing call inside the `try` is caught
and an `Error: ...` string is returned; `resp.text or ""` maps a missing
text to the empty string. -/
def generate_content (model : Option GenModel) (prompt : Str) : Except Str Str :=
  match model with
  | none => Except.error unavailableMsg
  | some m =>
    match m prompt with
    | Except.ok t => Except.ok (t.getD [])
    | Except.error e => Except.ok ("Error: ".toList ++ e)

/-- The review prompt of `review_project` (src/app.py lines 141-204): fixed
template text around the user requirement (defaulted to `N/A`) and the batch
text.  The long English instruction prose is abridged here; only the shape
(fixed text, interpolations, pass-through to `generate_content`) matters to
the claims. -/
def reviewPrompt (all_code : Str) (user_prompt : Option Str) : Str :=
  "You are an expert software debugger and code reviewer. ".toList
    ++ "User requirement: ".toList ++ user_prompt.getD "N/A".toList
    ++ " Here is the project: ".toList ++ all_code

/-- `review_project` (src/app.py lines 141-204): build the prompt and call
the model. -/
def review_project (model : Option GenModel) (all_code : Str)
    (user_prompt : Option Str) : Except Str Str :=
  generate_content model (reviewPrompt all_code user_prompt)

/-- The per-batch review loop of `run_pipeline` (src/app.py lines 341-347),
restricted to the model calls: batches are reviewed in order and an
uncaught exception from a review aborts the remaining batches (there is no
`try` around the loop body).  Logging and display are elided I/O. -/
def reviewBatches (model : Option GenModel) (user_prompt : Option Str) :
    List Str → Except Str (List Str)
  | [] => Except.ok []
  | b :: rest =>
    match review_project model b user_prompt with
    | Except.error e => Except.error e
    | Except.ok out =>
      match reviewBatches model user_prompt rest with
      | Except.error e => Except.error e
      | Except.ok outs => Except.ok (out :: outs)

/-- One iteration of the `auto_fix_project` loop (src/app.py lines 221-277)
for file `f`.  `fixResp` is the model response to the file-scoped fix prompt
(`Except.error` covering both a raised call and a `None` text, the cases the
`except` catches); `answers` is the boolean the confirmation callback or the
`y/n` prompt produces.  Skipped: `read_file` failure or empty content
(`if not code`), a caught exception, a rejected confirmation, and the
non-interactive-without-apply-all policy. -/
def auto_fix_one (fixResp : Str → Except Str Str) (answers : Str → Bool)
    (apply_all interactive : Bool) (f : Str) (fs : FS) : FS :=
  match fs f with
  | none => fs
  | some code =>
    if code = [] then fs
    else
      match fixResp f with
      | Except.error _ => fs
      | Except.ok t =>
        let new_code := pyStrip t
        if apply_all then write_file f new_code fs
        else if interactive then
          if answers f then write_file f new_code fs else fs
        else fs

/-- `auto_fix_project` (src/app.py lines 206-277) over its
`files_to_process` loop. -/
def auto_fix_project (fixResp : Str → Except Str Str) (answers : Str → Bool)
    (apply_all interactive : Bool) (files : List Str) (fs : FS) : FS :=
  files.foldl (fun acc f => auto_fix_one fixResp answers apply_all interactive f acc) fs

/-- Outcome of the front of `run_pipeline`: aborted for a bad root, aborted
with the no-source-files report, or proceeded to batching with the computed
batches (model calls happen only in this last state, one review per
batch). -/
inductive RunOutcome where
  | invalidPath : RunOutcome
  | noSourceFiles : RunOutcome
  | reviewed : List Str → List (List Str) → RunOutcome
deriving DecidableEq

/-- `run_pipeline` up to the review loop (src/app.py lines 310-338):
`os.path.exists(path)` is the boolean `pathExists`, the `os.walk`
enumeration is `walk`, and `contents` is the map built from `read_file`
(with `or ""` for unreadable files). -/
def run_pipeline (pathExists : Bool) (walk : List Str) (contents : Str → Str)
    (max_chars : Int) : RunOutcome :=
  if pathExists = false then RunOutcome.invalidPath
  else
    let files := get_code_files walk
    if files = [] then RunOutcome.noSourceFiles
    else
      let r := chunk_files files contents max_chars
      RunOutcome.reviewed r.1 r.2

/-- The pipeline stopped before batching and model calls. -/
def pipelineAborted (o : RunOutcome) : Prop :=
  o = RunOutcome.invalidPath ∨ o = RunOutcome.noSourceFiles

/-! ### Helper lemmas about the batching loop -/

theorem chunkGo_flatten (c : Str → Str) (m : Int) :
    ∀ (fs cur curf : List Str) (len : Nat), cur = curf.map (secF c) →
      ((chunkGo c m fs cur curf len).2).flatten = curf ++ fs := by
  intro fs
  induction fs with
  | nil =>
    intro cur curf len hinv
    by_cases h : cur = []
    · have hc : curf = [] := by
        cases curf with
        | nil => rfl
        | cons a t => rw [hinv] at h; simp at h
      simp [chunkGo, h, hc]
    · simp [chunkGo, h]
  | cons f rest ih =>
    intro cur curf len hinv
    by_cases h : cur ≠ [] ∧ m < (len : Int) + ((secF c f).length : Int)
    · have h2 := ih [secF c f] [f] (secF c f).length (by simp)
      simp only [chunkGo, if_pos h, List.flatten_cons, h2]
      simp
    · have h2 := ih (cur ++ [secF c f]) (curf ++ [f]) (len + (secF c f).length)
        (by rw [hinv]; simp)
      simp only [chunkGo, if_neg h, h2]
      simp

theorem chunkGo_fst (c : Str → Str) (m : Int) :
    ∀ (fs cur curf : List Str) (len : Nat), cur = curf.map (secF c) →
      (chunkGo c m fs cur curf len).1
        = ((chunkGo c m fs cur curf len).2).map (fun g => joinNl (g.map (secF c))) := by
  intro fs
  induction fs with
  | nil =>
    intro cur curf len hinv
    subst hinv
    by_cases h : curf = []
    · simp [chunkGo, h]
    · have h2 : List.map (secF c) curf ≠ [] := by simpa using h
      simp [chunkGo, h2]
  | cons f rest ih =>
    intro cur curf len hinv
    subst hinv
    by_cases h : List.map (secF c) curf ≠ [] ∧ m < (len : Int) + ((secF c f).length : Int)
    · have h2 := ih [secF c f] [f] (secF c f).length (by simp)
      simp only [chunkGo, if_pos h, List.map_cons, h2]
    · have h2 := ih (List.map (secF c) curf ++ [secF c f]) (curf ++ [f])
        (len + (secF c f).length) (by simp)
      simp only [chunkGo, if_neg h, h2]

theorem chunkGo_ne_nil (c : Str → Str) (m : Int) :
    ∀ (fs cur curf : List Str) (len : Nat), cur = curf.map (secF c) →
      ∀ g ∈ (chunkGo c m fs cur curf len).2, g ≠ [] := by
  intro fs
  induction fs with
  | nil =>
    intro cur curf len hinv g hg
    by_cases h : cur = []
    · simp [chunkGo, h] at hg
    · simp only [chunkGo, if_neg h] at hg
      simp at hg
      subst hg
      intro hc
      rw [hinv, hc] at h
      simp at h
  | cons f rest ih =>
    intro cur curf len hinv g hg
    by_cases h : cur ≠ [] ∧ m < (len : Int) + ((secF c f).length : Int)
    · simp only [chunkGo, if_pos h] at hg
      rcases List.mem_cons.mp hg with h1 | h1
      · subst h1
        intro hc
        rw [hinv, hc] at h
        simp at h
      · exact ih [secF c f] [f] (secF c f).length (by simp) g h1
    · simp only [chunkGo, if_neg h] at hg
      exact ih (cur ++ [secF c f]) (curf ++ [f]) (len + (secF c f).length)
        (by rw [hinv]; simp) g hg

theorem chunkGo_budget (c : Str → Str) (m : Int) :
    ∀ (fs cur curf : List Str) (len : Nat), cur = curf.map (secF c) →
      len = (cur.map List.length).sum →
      (1 < curf.length → (len : Int) ≤ m) →
      ∀ g ∈ (chunkGo c m fs cur curf len).2, 1 < g.length →
        (((g.map (fun f => (secF c f).length)).sum : Nat) : Int) ≤ m := by
  intro fs
  induction fs with
  | nil =>
    intro cur curf len hinv hlen hbud g hg hglen
    by_cases h : cur = []
    · simp [chunkGo, h] at hg
    · simp only [chunkGo, if_neg h] at hg
      simp at hg
      subst hg
      have hs : (g.map (fun f => (secF c f).length)).sum = len := by
        rw [hlen, hinv, List.map_map]
        rfl
      rw [hs]
      exact hbud hglen
  | cons f rest ih =>
    intro cur curf len hinv hlen hbud g hg hglen
    by_cases h : cur ≠ [] ∧ m < (len : Int) + ((secF c f).length : Int)
    · simp only [chunkGo, if_pos h] at hg
      rcases List.mem_cons.mp hg with h1 | h1
      · subst h1
        have hs : (g.map (fun f => (secF c f).length)).sum = len := by
          rw [hlen, hinv, List.map_map]
          rfl
        rw [hs]
        exact hbud hglen
      · exact ih [secF c f] [f] (secF c f).length (by simp) (by simp)
          (by intro hc; simp at hc) g h1 hglen
    · simp only [chunkGo, if_neg h] at hg
      have hdisj : cur = [] ∨ (len : Int) + ((secF c f).length : Int) ≤ m := by
        rcases not_and_or.mp h with h1 | h1
        · exact Or.inl (not_not.mp h1)
        · exact Or.inr (not_lt.mp h1)
      refine ih (cur ++ [secF c f]) (curf ++ [f]) (len + (secF c f).length)
        (by rw [hinv]; simp) (by rw [hlen]; simp) ?_ g hg hglen
      intro hlong
      rcases hdisj with h1 | h1
      · exfalso
        rw [h1] at hinv
        have hcf : curf = [] := by
          cases curf with
          | nil => rfl
          | cons a t => simp at hinv
        rw [hcf] at hlong
        simp at hlong
      · push_cast
        push_cast at h1
        exact h1

theorem joinNl_length : ∀ (l : List Str), l ≠ [] →
    (joinNl l).length = (l.map List.length).sum + (l.length - 1)
  | [], h => absurd rfl h
  | [x], _ => by simp [joinNl]
  | x :: y :: t, _ => by
    have ih := joinNl_length (y :: t) (by simp)
    simp only [joinNl, List.length_append, List.length_cons, ih, List.map_cons,
      List.sum_cons, List.length_map]
    omega

/-! ### Claims about the batching component -/

/-- C1: the batches returned by `chunk_files` form a partition of the input:
concatenating the per-batch file lists in batch order reproduces the input
file list in its original order, hence every input file appears in exactly
one batch and no batch holds a file outside the input. -/
theorem chunk_files_partition (files : List Str) (contents : Str → Str)
    (max_chars : Int) :
    ((chunk_files files contents max_chars).2).flatten = files := by
  simpa using chunkGo_flatten contents max_chars files [] [] 0 rfl

/-- C10: the two lists returned by `chunk_files` correspond exactly — the
batch texts are precisely the per-batch file sections joined by single
newlines (which also forces equal lengths) — and every batch contains at
least one file. -/
theorem chunk_files_correspond (files : List Str) (contents : Str → Str)
    (max_chars : Int) :
    (chunk_files files contents max_chars).1
      = ((chunk_files files contents max_chars).2).map
          (fun g => joinNl (g.map (fun f => build_file_section f (contents f))))
    ∧ ∀ g ∈ (chunk_files files contents max_chars).2, g ≠ [] := by
  constructor
  · exact chunkGo_fst contents max_chars files [] [] 0 rfl
  · exact chunkGo_ne_nil contents max_chars files [] [] 0 rfl

theorem chunk_files_correspond_witness : ["c.py".toList] ≠ ([] : List Str) :=
  (chunk_files_correspond ["c.py".toList] (fun _ => []) 7).2 ["c.py".toList] (by decide)

/-- C2 counterexample: for empty files `a.py` and `b.py` (each serialized
section has 32 characters) and budget 64 the loop packs both into one batch,
since the tracked length 32+32 does not exceed 64 — but the serialized batch
text joins the two sections with an extra newline and has length 65 > 64.
So a batch with more than one file can exceed the character budget. -/
theorem chunk_files_budget_cex :
    (chunk_files ["a.py".toList, "b.py".toList] (fun _ => []) 64).2
        = [["a.py".toList, "b.py".toList]]
    ∧ ((chunk_files ["a.py".toList, "b.py".toList] (fun _ => []) 64).1.headD []).length
        = 65 := by
  constructor
  · decide
  · decide

/-- C2 (amended): for every batch with more than one file, the sum of its
per-file section lengths — the quantity the loop tracks — does not exceed
`max_chars`, and the serialized batch text exceeds `max_chars` by at most
the `size - 1` newlines inserted between sections by the join. -/
theorem chunk_files_budget_amended (files : List Str) (contents : Str → Str)
    (max_chars : Int) :
    ∀ g ∈ (chunk_files files contents max_chars).2, 1 < g.length →
      (((g.map (fun f => (build_file_section f (contents f)).length)).sum : Int)
          ≤ max_chars
       ∧ ((joinNl (g.map (fun f => build_file_section f (contents f)))).length : Int)
           ≤ max_chars + ((g.length - 1 : Nat) : Int)) := by
  intro g hg hglen
  have h1 := chunkGo_budget contents max_chars files [] [] 0 rfl rfl
    (by intro h; simp at h) g hg hglen
  simp only [secF] at h1
  constructor
  · exact h1
  · have hgne : g.map (fun f => build_file_section f (contents f)) ≠ [] := by
      intro hc
      rw [List.map_eq_nil_iff] at hc
      rw [hc] at hglen
      simp at hglen
    have hjl := joinNl_length _ hgne
    rw [List.map_map] at hjl
    simp only [Function.comp_def, List.length_map] at hjl
    rw [hjl, Nat.cast_add]
    omega

theorem chunk_files_budget_amended_witness :
    ((["a.py".toList, "b.py".toList].map
        (fun f => (build_file_section f []).length)).sum : Int) ≤ 64
    ∧ ((joinNl (["a.py".toList, "b.py".toList].map
        (fun f => build_file_section f []))).length : Int)
        ≤ 64 + (((["a.py".toList, "b.py".toList] : List Str).length - 1 : Nat) : Int) :=
  chunk_files_budget_amended ["a.py".toList, "b.py".toList] (fun _ => []) 64
    ["a.py".toList, "b.py".toList] (by decide) (by decide)

/-- C3: a file whose serialized section alone exceeds the budget is never
dropped — it lies in some batch — and every batch containing it is exactly
the singleton of that file, so it is neither merged with others nor
split. -/
theorem oversized_file_own_batch (files : List Str) (contents : Str → Str)
    (max_chars : Int) (f : Str) (hf : f ∈ files)
    (hbig : max_chars < ((build_file_section f (contents f)).length : Int)) :
    (∃ g ∈ (chunk_files files contents max_chars).2, f ∈ g)
    ∧ ∀ g ∈ (chunk_files files contents max_chars).2, f ∈ g → g = [f] := by
  have hpart : ((chunk_files files contents max_chars).2).flatten = files := by
    simpa using chunkGo_flatten contents max_chars files [] [] 0 rfl
  constructor
  · apply List.mem_flatten.mp
    rw [hpart]
    exact hf
  · intro g hg hfg
    by_cases hlen : 1 < g.length
    · exfalso
      have hsum := chunkGo_budget contents max_chars files [] [] 0 rfl rfl
        (by intro h; simp at h) g hg hlen
      have hmem : (secF contents f).length
          ∈ g.map (fun x => (secF contents x).length) :=
        List.mem_map_of_mem _ hfg
      have hle : (secF contents f).length
          ≤ (g.map (fun x => (secF contents x).length)).sum :=
        List.single_le_sum (by intro x _; exact Nat.zero_le x) _ hmem
      have hle2 : ((secF contents f).length : Int)
          ≤ ((g.map (fun x => (secF contents x).length)).sum : Int) := by
        exact_mod_cast hle
      have hbig2 : max_chars < ((secF contents f).length : Int) := hbig
      omega
    · cases g with
      | nil => cases hfg
      | cons a t =>
        cases t with
        | nil =>
          have ha : f = a := by simpa using hfg
          rw [ha]
        | cons b t2 =>
          exfalso
          apply hlen
          simp only [List.length_cons]
          omega

theorem oversized_file_own_batch_witness :
    (∃ g ∈ (chunk_files ["a.py".toList] (fun _ => []) 5).2, "a.py".toList ∈ g)
    ∧ ∀ g ∈ (chunk_files ["a.py".toList] (fun _ => []) 5).2,
        "a.py".toList ∈ g → g = ["a.py".toList] :=
  oversized_file_own_batch ["a.py".toList] (fun _ => []) 5 "a.py".toList
    (by decide) (by decide)

/-! ### Helper lemmas about backup and write -/

theorem bakPath_ne (p : Str) : ¬ bakPath p = p := by
  intro h
  have h2 := congrArg List.length h
  simp only [bakPath, List.length_append, List.length_cons, List.length_nil] at h2
  omega

theorem bakPath_inj {a b : Str} (h : bakPath a = bakPath b) : a = b := by
  have hlen : a.length = b.length := by
    have h2 := congrArg List.length h
    simp only [bakPath, List.length_append, List.length_cons, List.length_nil] at h2
    omega
  exact (List.append_inj h hlen).1

theorem safe_backup_frame (p : Str) (fs : FS) (q : Str) (hqb : ¬ q = bakPath p) :
    safe_backup p fs q = fs q := by
  unfold safe_backup
  by_cases hc : (fs (bakPath p)).isNone ∧ (fs p).isSome
  · rw [if_pos hc]
    simp [hqb]
  · rw [if_neg hc]

theorem write_file_frame (p : Str) (nc : Str) (fs : FS) (q : Str)
    (hq : ¬ q = p) (hqb : ¬ q = bakPath p) : write_file p nc fs q = fs q := by
  simp only [write_file]
  rw [if_neg hq]
  exact safe_backup_frame p fs q hqb

theorem write_file_at_self (p : Str) (nc : Str) (fs : FS) :
    write_file p nc fs p = some (clean_code_fences nc) := by
  simp [write_file]

/-- C4: first write wins for backups.  Starting from a filesystem where `p`
holds `orig` and no `p.bak` exists, writing `p` twice leaves `p.bak` holding
the original pre-run content `orig` (the second `safe_backup` sees the
existing backup and does not refresh it), leaves `p` holding the cleaned
second content, and touches no path other than `p` and `p.bak` — so exactly
one backup file is created. -/
theorem backup_first_write_wins (fs : FS) (p orig c1 c2 : Str)
    (h1 : fs p = some orig) (h2 : fs (bakPath p) = none) :
    write_file p c2 (write_file p c1 fs) (bakPath p) = some orig
    ∧ write_file p c2 (write_file p c1 fs) p = some (clean_code_fences c2)
    ∧ ∀ q, ¬ q = p → ¬ q = bakPath p →
        write_file p c2 (write_file p c1 fs) q = fs q := by
  have hbp := bakPath_ne p
  have hA : write_file p c1 fs (bakPath p) = some orig := by
    simp only [write_file]
    rw [if_neg hbp]
    unfold safe_backup
    rw [if_pos ⟨by rw [h2]; rfl, by rw [h1]; rfl⟩]
    rw [if_pos rfl]
    exact h1
  refine ⟨?_, write_file_at_self p c2 _, ?_⟩
  · have hG : ∀ fsA : FS, fsA (bakPath p) = some orig →
        write_file p c2 fsA (bakPath p) = some orig := by
      intro fsA hA2
      have hcnd : ¬ ((fsA (bakPath p)).isNone = true ∧ (fsA p).isSome = true) := by
        intro hc
        rw [hA2] at hc
        exact absurd hc.1 (by simp)
      simp only [write_file]
      rw [if_neg hbp]
      unfold safe_backup
      rw [if_neg hcnd]
      exact hA2
    exact hG _ hA
  · intro q hq hqb
    rw [write_file_frame p c2 _ q hq hqb, write_file_frame p c1 fs q hq hqb]

/-! ### Helper lemmas about Python strip -/

theorem dropWhile_head_false (p : Char → Bool) :
    ∀ (l : Str) (c : Char) (t : Str), l.dropWhile p = c :: t → p c = false := by
  intro l
  induction l with
  | nil => intro c t h; simp [List.dropWhile] at h
  | cons a l ih =>
    intro c t h
    rw [List.dropWhile_cons] at h
    by_cases hp : p a = true
    · rw [if_pos hp] at h
      exact ih c t h
    · rw [if_neg hp] at h
      injection h with h1 h2
      rw [← h1]
      simpa using hp

theorem rstrip_eq_rdropWhile (l : Str) : rstrip l = List.rdropWhile isPySpace l := rfl

theorem pyStrip_rev (x : Str) :
    (pyStrip x).reverse = (x.dropWhile isPySpace).reverse.dropWhile isPySpace := by
  simp [pyStrip, rstrip]

theorem pyStrip_head_false (x : Str) :
    ∀ c t, pyStrip x = c :: t → isPySpace c = false := by
  intro c t h
  have hpre : pyStrip x <+: x.dropWhile isPySpace := by
    rw [pyStrip, rstrip_eq_rdropWhile]
    exact List.rdropWhile_prefix _ _
  obtain ⟨s, hs⟩ := hpre
  rw [h] at hs
  exact dropWhile_head_false isPySpace x c (t ++ s) (by rw [← hs]; rfl)

theorem dropWhile_pyStrip (x : Str) :
    (pyStrip x).dropWhile isPySpace = pyStrip x := by
  cases hy : pyStrip x with
  | nil => simp
  | cons c t =>
    have hc := pyStrip_head_false x c t hy
    rw [List.dropWhile_cons, if_neg (by simp [hc])]

theorem rstrip_pyStrip (x : Str) : rstrip (pyStrip x) = pyStrip x := by
  simp only [pyStrip, rstrip_eq_rdropWhile]
  exact List.rdropWhile_idempotent _ _

theorem pyStrip_idem (x : Str) : pyStrip (pyStrip x) = pyStrip x := by
  have h1 : pyStrip (pyStrip x) = rstrip ((pyStrip x).dropWhile isPySpace) := rfl
  rw [h1, dropWhile_pyStrip, rstrip_pyStrip]

theorem pyStrip_append_nl (x : Str) :
    pyStrip (pyStrip x ++ ['\n']) = pyStrip x := by
  cases hy : pyStrip x with
  | nil => decide
  | cons c t =>
    have hc := pyStrip_head_false x c t hy
    have hd : ((c :: t) ++ ['\n']).dropWhile isPySpace = (c :: t) ++ ['\n'] := by
      rw [List.cons_append, List.dropWhile_cons, if_neg (by simp [hc])]
    have h1 : pyStrip ((c :: t) ++ ['\n']) = rstrip ((c :: t) ++ ['\n']) := by
      rw [pyStrip, hd]
    rw [h1, rstrip_eq_rdropWhile,
      List.rdropWhile_concat_pos isPySpace (c :: t) '\n' (by decide)]
    rw [← hy, ← rstrip_eq_rdropWhile]
    exact rstrip_pyStrip x

theorem pyStrip_nl_ends (x : Str) :
    endsWithL ['\n'] (pyStrip x ++ ['\n']) = true
    ∧ endsWithL ['\n', '\n'] (pyStrip x ++ ['\n']) = false := by
  have hrev : (pyStrip x ++ ['\n']).reverse = '\n' :: (pyStrip x).reverse := by
    simp
  constructor
  · simp [endsWithL, startsWithL, hrev]
  · simp only [endsWithL, startsWithL]
    rw [decide_eq_false_iff_not]
    intro hq
    rw [hrev, pyStrip_rev] at hq
    cases hw : (x.dropWhile isPySpace).reverse.dropWhile isPySpace with
    | nil => rw [hw] at hq; simp at hq
    | cons c t =>
      rw [hw] at hq
      simp at hq
      have hc := dropWhile_head_false isPySpace _ c t hw
      rw [hq] at hc
      simp [isPySpace] at hc

/-! ### Claims about backup, write and fence stripping -/

theorem backup_first_write_wins_witness :
    write_file "a.py".toList "y".toList
        (write_file "a.py".toList "z".toList
          (fun q => if q = "a.py".toList then some "x".toList else none))
        (bakPath "a.py".toList) = some "x".toList :=
  (backup_first_write_wins
      (fun q => if q = "a.py".toList then some "x".toList else none)
      "a.py".toList "x".toList "z".toList "y".toList (by decide) (by decide)).1

/-- C5 counterexample: for the empty input string `clean_code_fences`
returns the empty string (the `if not text` early return), which does not
end with a newline — so the written content does not always end with
exactly one trailing newline for every input. -/
theorem clean_trailing_newline_cex :
    clean_code_fences [] = [] ∧ endsWithL ['\n'] (clean_code_fences []) = false := by
  decide

/-- C5 (amended): for every NON-EMPTY input string, the output of
`clean_code_fences` — the content `write_file` puts on disk — ends with
exactly one trailing newline (it ends with a newline and not with two),
regardless of how many trailing newlines the input had, including zero. -/
theorem clean_trailing_newline_amended (t : Str) (h : ¬ t = []) :
    endsWithL ['\n'] (clean_code_fences t) = true
    ∧ endsWithL ['\n', '\n'] (clean_code_fences t) = false := by
  have hcc : clean_code_fences t
      = pyStrip (stripLabel (regex2 (regex1 (pyStrip t)))) ++ ['\n'] := by
    rw [clean_code_fences, if_neg h]
  rw [hcc]
  exact pyStrip_nl_ends _

theorem clean_trailing_newline_amended_witness :
    endsWithL ['\n'] (clean_code_fences "abc".toList) = true
    ∧ endsWithL ['\n', '\n'] (clean_code_fences "abc".toList) = false :=
  clean_trailing_newline_amended "abc".toList (by decide)

/-- C6 counterexample: fence stripping is not idempotent.  On the input
whose stripped form stacks two fences, the first pass removes only the
outer leading fence and uncovers a second one, which the second pass then
removes, so cleaning twice differs from cleaning once. -/
theorem clean_idem_cex :
    ¬ clean_code_fences (clean_code_fences "```py\n```js\nx".toList)
        = clean_code_fences "```py\n```js\nx".toList := by
  decide

/-! Length lemmas: each pattern rule strictly shortens the text when it
fires, which gives the only-if direction of the idempotence
characterisation. -/

theorem dropWhile_length_le (p : Char → Bool) (l : Str) :
    (l.dropWhile p).length ≤ l.length :=
  (List.dropWhile_suffix p).length_le

theorem pyStrip_length_le (x : Str) : (pyStrip x).length ≤ x.length := by
  have h1 : (pyStrip x).length ≤ (x.dropWhile isPySpace).length := by
    have h := (List.rdropWhile_prefix isPySpace (x.dropWhile isPySpace)).length_le
    simpa [pyStrip, rstrip_eq_rdropWhile] using h
  have h2 := dropWhile_length_le isPySpace x
  omega

theorem startsWithL_length (p s : Str) (h : startsWithL p s = true) :
    p.length ≤ s.length := by
  simp only [startsWithL, decide_eq_true_eq] at h
  have h2 := congrArg List.length h
  rw [List.length_take] at h2
  omega

theorem endsWithL_length (p s : Str) (h : endsWithL p s = true) :
    p.length ≤ s.length := by
  unfold endsWithL at h
  have h2 := startsWithL_length _ _ h
  simpa using h2

theorem dropRightL_length (n : Nat) (l : Str) :
    (dropRightL n l).length = l.length - n := by
  simp [dropRightL]

theorem regex1_cases (s : Str) :
    regex1 s = s ∨ (regex1 s).length < s.length := by
  have hre : regex1 s
      = (if startsWithL "```".toList s = true then
          (match (s.drop 3).dropWhile isWordPM with
           | '\n' :: r2 => r2
           | _ => (s.drop 3).dropWhile isWordPM)
        else s) := rfl
  rw [hre]
  by_cases h : startsWithL "```".toList s = true
  · right
    rw [if_pos h]
    have h3 : 3 ≤ s.length := by
      have h4 := startsWithL_length _ _ h
      simpa using h4
    have hd := dropWhile_length_le isWordPM (s.drop 3)
    rw [List.length_drop] at hd
    split
    · next r2 heq =>
      have e3 := congrArg List.length heq
      simp only [List.length_cons] at e3
      omega
    · omega
  · left
    rw [if_neg h]

theorem regex2core_cases (t : Str) :
    regex2core t = t ∨ (regex2core t).length < t.length := by
  unfold regex2core
  by_cases h1 : endsWithL "\n```".toList t = true
  · right
    rw [if_pos h1]
    have h4 : 4 ≤ t.length := by
      have h5 := endsWithL_length _ _ h1
      simpa using h5
    rw [dropRightL_length]
    omega
  · rw [if_neg h1]
    by_cases h2 : endsWithL "```".toList t = true
    · right
      rw [if_pos h2]
      have h3 : 3 ≤ t.length := by
        have h5 := endsWithL_length _ _ h2
        simpa using h5
      rw [dropRightL_length]
      omega
    · left
      rw [if_neg h2]

theorem dropRight_append_nl (s : Str) (h : endsWithL ['\n'] s = true) :
    dropRightL 1 s ++ ['\n'] = s := by
  simp only [endsWithL, startsWithL, decide_eq_true_eq] at h
  cases hr : s.reverse with
  | nil => rw [hr] at h; simp at h
  | cons c t =>
    rw [hr] at h
    simp at h
    subst h
    have h2 : dropRightL 1 s = t.reverse := by
      rw [dropRightL, hr]
      simp
    have h3 : s = ('\n' :: t).reverse := by rw [← hr, List.reverse_reverse]
    rw [h2, h3]
    simp

theorem regex2_cases (s : Str) :
    regex2 s = s ∨ (regex2 s).length < s.length := by
  unfold regex2
  by_cases hn : endsWithL ['\n'] s = true
  · rw [if_pos hn]
    have h1 : 1 ≤ s.length := by
      have h2 := endsWithL_length _ _ hn
      simpa using h2
    rcases regex2core_cases (dropRightL 1 s) with h | h
    · left
      rw [h]
      exact dropRight_append_nl s hn
    · right
      rw [List.length_append]
      rw [dropRightL_length] at h
      have h2 : (['\n'] : Str).length = 1 := rfl
      omega
  · rw [if_neg hn]
    exact regex2core_cases s

theorem regex2_length_le (s : Str) : (regex2 s).length ≤ s.length := by
  rcases regex2_cases s with h | h
  · exact (congrArg List.length h).le
  · exact h.le

theorem ciPre_length (p : Str) : ∀ (s : Str), ciPre p s = true →
    p.length ≤ s.length := by
  induction p with
  | nil => intro s _; simp
  | cons a as ih =>
    intro s h
    cases s with
    | nil => simp [ciPre] at h
    | cons b bs =>
      simp only [ciPre, Bool.and_eq_true] at h
      have h2 := ih bs h.2
      simp only [List.length_cons]
      omega

theorem findLabel_spec (t rest : Str) (h : findLabel t = some rest) :
    ∃ lab, lab ∈ LABELS ∧ ciPre lab t = true ∧ rest = t.drop lab.length := by
  have hfl : findLabel t
      = (if ciPre "Fixed code".toList t then some (t.drop ("Fixed code".toList).length)
         else if ciPre "Corrected code".toList t then
           some (t.drop ("Corrected code".toList).length)
         else if ciPre "Suggested fix".toList t then
           some (t.drop ("Suggested fix".toList).length)
         else none) := rfl
  rw [hfl] at h
  by_cases h1 : ciPre "Fixed code".toList t = true
  · rw [if_pos h1] at h
    exact ⟨"Fixed code".toList, by simp [LABELS], h1, (Option.some.inj h).symm⟩
  · rw [if_neg h1] at h
    by_cases h2 : ciPre "Corrected code".toList t = true
    · rw [if_pos h2] at h
      exact ⟨"Corrected code".toList, by simp [LABELS], h2, (Option.some.inj h).symm⟩
    · rw [if_neg h2] at h
      by_cases h3 : ciPre "Suggested fix".toList t = true
      · rw [if_pos h3] at h
        exact ⟨"Suggested fix".toList, by simp [LABELS], h3, (Option.some.inj h).symm⟩
      · rw [if_neg h3] at h
        exact absurd h (by simp)

theorem stripLabel_cases (s : Str) :
    stripLabel s = s ∨ (stripLabel s).length < s.length := by
  have hsl : stripLabel s
      = (match findLabel (s.dropWhile isPySpace) with
         | none => s
         | some rest =>
           match rest.dropWhile isPySpace with
           | ':' :: r2 => r2.dropWhile isPySpace
           | _ => s) := rfl
  rw [hsl]
  cases hf : findLabel (s.dropWhile isPySpace) with
  | none => exact Or.inl rfl
  | some rest =>
    obtain ⟨lab, hmem, hci, hrest⟩ := findLabel_spec _ _ hf
    have hlab : 1 ≤ lab.length := by
      simp only [LABELS, List.mem_cons, List.not_mem_nil, or_false] at hmem
      rcases hmem with rfl | rfl | rfl <;> decide
    have ht := dropWhile_length_le isPySpace s
    have hcil := ciPre_length lab _ hci
    show (match rest.dropWhile isPySpace with
          | ':' :: r2 => r2.dropWhile isPySpace
          | _ => s) = s
        ∨ (match rest.dropWhile isPySpace with
          | ':' :: r2 => r2.dropWhile isPySpace
          | _ => s).length < s.length
    split
    · next r2 heq =>
      right
      have e1 := dropWhile_length_le isPySpace r2
      have e3 := congrArg List.length heq
      simp only [List.length_cons] at e3
      have e4 := dropWhile_length_le isPySpace rest
      have e2 : rest.length = (s.dropWhile isPySpace).length - lab.length := by
        rw [hrest, List.length_drop]
      omega
    · exact Or.inl rfl

theorem stripLabel_length_le (s : Str) : (stripLabel s).length ≤ s.length := by
  rcases stripLabel_cases s with h | h
  · exact (congrArg List.length h).le
  · exact h.le

/-- C6 (amended): `clean_code_fences` is idempotent EXACTLY on the inputs
whose cleaned text (with its trailing newline stripped) is a fixed point of
each of the three pattern rules — no leading fence, no trailing fence and no
leading label remain after one pass.  If-direction: on such a fixed point a
second pass changes nothing.  Only-if direction: each rule strictly shortens
the text when it fires, so an unchanged second pass means no rule fired.
When a pass uncovers further markup (nested fences, a label hidden behind a
fence) a second pass strips more and idempotence fails, as the
counterexample shows. -/
theorem clean_idem_amended (s : Str) :
    clean_code_fences (clean_code_fences s) = clean_code_fences s
    ↔ (regex1 (pyStrip (clean_code_fences s)) = pyStrip (clean_code_fences s)
       ∧ regex2 (pyStrip (clean_code_fences s)) = pyStrip (clean_code_fences s)
       ∧ stripLabel (pyStrip (clean_code_fences s)) = pyStrip (clean_code_fences s)) := by
  by_cases hs : s = []
  · subst hs
    constructor
    · intro _
      exact ⟨by decide, by decide, by decide⟩
    · intro _
      decide
  · have hcc : clean_code_fences s
        = pyStrip (stripLabel (regex2 (regex1 (pyStrip s)))) ++ ['\n'] := by
      rw [clean_code_fences, if_neg hs]
    have hne : ¬ clean_code_fences s = [] := by
      rw [hcc]
      simp
    have hu : pyStrip (clean_code_fences s)
        = pyStrip (stripLabel (regex2 (regex1 (pyStrip s)))) := by
      rw [hcc]
      exact pyStrip_append_nl _
    have hx : clean_code_fences (clean_code_fences s)
        = pyStrip (stripLabel (regex2 (regex1 (pyStrip (clean_code_fences s))))) ++ ['\n'] := by
      rw [clean_code_fences, if_neg hne]
    constructor
    · intro h
      rw [hx, hu, hcc] at h
      have e0 := congrArg List.length h
      simp at e0
      rw [hu]
      revert e0
      generalize pyStrip (stripLabel (regex2 (regex1 (pyStrip s)))) = A
      intro e0
      rcases regex1_cases A with h1 | h1
      · rw [h1] at e0
        rcases regex2_cases A with h2 | h2
        · rw [h2] at e0
          rcases stripLabel_cases A with h3 | h3
          · exact ⟨h1, h2, h3⟩
          · exfalso
            have b1 := pyStrip_length_le (stripLabel A)
            omega
        · exfalso
          have b1 := pyStrip_length_le (stripLabel (regex2 A))
          have b2 := stripLabel_length_le (regex2 A)
          omega
      · exfalso
        have b1 := pyStrip_length_le (stripLabel (regex2 (regex1 A)))
        have b2 := stripLabel_length_le (regex2 (regex1 A))
        have b3 := regex2_length_le (regex1 A)
        omega
    · rintro ⟨h1, h2, h3⟩
      rw [hx, h1, h2, h3, pyStrip_idem]
      rw [hu, hcc]

theorem clean_idem_amended_witness :
    clean_code_fences (clean_code_fences "hi".toList) = clean_code_fences "hi".toList :=
  (clean_idem_amended "hi".toList).mpr ⟨by decide, by decide, by decide⟩

/-! ### Claims about model-call error flow -/

/-- C7 counterexample: when the model handle is unavailable (`MODEL is
None`, the misconfiguration case), `generate_content` raises a
`RuntimeError` instead of returning an error-carrying string — the
exception escapes the call — and the review loop over two batches aborts
with that exception, so the orchestrator does not continue to the next
batch. -/
theorem model_error_flow_cex :
    generate_content none "x".toList = Except.error unavailableMsg
    ∧ reviewBatches none none ["x".toList, "y".toList]
        = Except.error unavailableMsg := by
  constructor
  · rfl
  · rfl

/-- C7 (amended): when the model handle exists, every failure of the call
itself is caught inside `generate_content` and substituted by an
`Error: ...` string in place of the expected output, so the review loop
never sees an exception and yields one output per batch — the orchestrator
reaches every batch.  Only the unavailable-handle case raises, as the
counterexample shows. -/
theorem model_error_flow_amended (m : GenModel) (up : Option Str) (bs : List Str) :
    ∃ outs, reviewBatches (some m) up bs = Except.ok outs
      ∧ outs.length = bs.length := by
  induction bs with
  | nil => exact ⟨[], rfl, rfl⟩
  | cons b rest ih =>
    obtain ⟨outs, houts, hlen⟩ := ih
    have hok : ∃ t, review_project (some m) b up = Except.ok t := by
      have hred : review_project (some m) b up
          = match m (reviewPrompt b up) with
            | Except.ok t => Except.ok (t.getD [])
            | Except.error e => Except.ok ("Error: ".toList ++ e) := rfl
      rw [hred]
      cases m (reviewPrompt b up) with
      | ok t => exact ⟨t.getD [], rfl⟩
      | error e => exact ⟨"Error: ".toList ++ e, rfl⟩
    obtain ⟨t, ht⟩ := hok
    refine ⟨t :: outs, ?_, by simp [hlen]⟩
    simp only [reviewBatches, ht, houts]

/-! ### Claims about the fix applier -/

theorem auto_fix_one_reject (fixResp : Str → Except Str Str)
    (answers : Str → Bool) (f : Str) (fs : FS) (hans : answers f = false) :
    auto_fix_one fixResp answers false true f fs = fs := by
  cases hfs : fs f with
  | none => simp [auto_fix_one, hfs]
  | some code =>
    by_cases hc : code = []
    · simp [auto_fix_one, hfs, hc]
    · cases hfr : fixResp f with
      | error e => simp [auto_fix_one, hfs, hc, hfr]
      | ok t => simp [auto_fix_one, hfs, hc, hfr, hans]

theorem auto_fix_one_frame (fixResp : Str → Except Str Str)
    (answers : Str → Bool) (aa i : Bool) (g : Str) (fs : FS) (q : Str)
    (hq : ¬ q = g) (hqb : ¬ q = bakPath g) :
    auto_fix_one fixResp answers aa i g fs q = fs q := by
  cases hfs : fs g with
  | none => simp [auto_fix_one, hfs]
  | some code =>
    by_cases hc : code = []
    · simp [auto_fix_one, hfs, hc]
    · cases hfr : fixResp g with
      | error e => simp [auto_fix_one, hfs, hc, hfr]
      | ok t =>
        have hw := write_file_frame g (pyStrip t) fs q hq hqb
        by_cases haa : aa = true
        · simp [auto_fix_one, hfs, hc, hfr, haa, hw]
        · by_cases hi : i = true
          · by_cases hans : answers g = true
            · simp [auto_fix_one, hfs, hc, hfr, haa, hi, hans, hw]
            · simp [auto_fix_one, hfs, hc, hfr, haa, hi, hans]
          · simp [auto_fix_one, hfs, hc, hfr, haa, hi]

theorem auto_fix_project_reject_frame (fixResp : Str → Except Str Str)
    (answers : Str → Bool) :
    ∀ (files : List Str) (fs : FS) (f : Str),
      answers f = false →
      (∀ g ∈ files, ¬ bakPath g = f) →
      (∀ g ∈ files, ¬ g = bakPath f) →
      auto_fix_project fixResp answers false true files fs f = fs f
      ∧ auto_fix_project fixResp answers false true files fs (bakPath f)
          = fs (bakPath f) := by
  intro files
  induction files with
  | nil =>
    intro fs f _ _ _
    exact ⟨rfl, rfl⟩
  | cons g rest ih =>
    intro fs f hans h1 h2
    have hg1 := h1 g (List.mem_cons_self g rest)
    have hg2 := h2 g (List.mem_cons_self g rest)
    have hrest := ih (auto_fix_one fixResp answers false true g fs) f hans
      (fun x hx => h1 x (List.mem_cons_of_mem g hx))
      (fun x hx => h2 x (List.mem_cons_of_mem g hx))
    have hstep : auto_fix_project fixResp answers false true (g :: rest) fs
        = auto_fix_project fixResp answers false true rest
            (auto_fix_one fixResp answers false true g fs) := rfl
    rw [hstep]
    by_cases hgf : g = f
    · subst hgf
      constructor
      · rw [hrest.1, auto_fix_one_reject fixResp answers g fs hans]
      · rw [hrest.2, auto_fix_one_reject fixResp answers g fs hans]
    · constructor
      · rw [hrest.1, auto_fix_one_frame fixResp answers false true g fs f
          (fun hc => hgf hc.symm) (fun hc => hg1 hc.symm)]
      · rw [hrest.2, auto_fix_one_frame fixResp answers false true g fs (bakPath f)
          (fun hc => hg2 hc.symm) (fun hc => hgf (bakPath_inj hc).symm)]

/-- C8: under the interactive policy (`apply_all = false`,
`interactive = true`), a rejected confirmation for file `f` makes the
iteration for `f` a no-op on the filesystem — no write and hence no backup
is attempted — and across a whole run (whose file list does not alias `f`
with some other processed file's `.bak` sibling) both `f` and `f.bak` are
exactly as before. -/
theorem interactive_reject_no_write (fixResp : Str → Except Str Str)
    (answers : Str → Bool) (files : List Str) (f : Str) (fs : FS)
    (hans : answers f = false)
    (h1 : ∀ g ∈ files, ¬ bakPath g = f)
    (h2 : ∀ g ∈ files, ¬ g = bakPath f) :
    auto_fix_one fixResp answers false true f fs = fs
    ∧ auto_fix_project fixResp answers false true files fs f = fs f
    ∧ auto_fix_project fixResp answers false true files fs (bakPath f)
        = fs (bakPath f) :=
  ⟨auto_fix_one_reject fixResp answers f fs hans,
   (auto_fix_project_reject_frame fixResp answers files fs f hans h1 h2).1,
   (auto_fix_project_reject_frame fixResp answers files fs f hans h1 h2).2⟩

theorem interactive_reject_no_write_witness :
    auto_fix_project (fun _ => Except.ok "code".toList) (fun _ => false)
        false true ["a.py".toList]
        (fun q => if q = "a.py".toList then some "x".toList else none)
        "a.py".toList
      = (fun q => if q = "a.py".toList then some "x".toList else none)
          "a.py".toList :=
  (interactive_reject_no_write (fun _ => Except.ok "code".toList)
      (fun _ => false) ["a.py".toList] "a.py".toList
      (fun q => if q = "a.py".toList then some "x".toList else none)
      (by decide) (by decide) (by decide)).2.1

/-! ### Claim about the pipeline front -/

/-- C9: the front of `run_pipeline` aborts — before any batching and before
any model call, which occur only in the `reviewed` state — exactly when the
root path is invalid or the file collector returns an empty list; in
particular a root whose walk holds only `readme.md` (extension outside the
allow-list) stops with the no-source-files report. -/
theorem pipeline_abort_iff (e : Bool) (walk : List Str) (contents : Str → Str)
    (max_chars : Int) :
    (pipelineAborted (run_pipeline e walk contents max_chars)
        ↔ (e = false ∨ get_code_files walk = []))
    ∧ run_pipeline true ["proj/readme.md".toList] (fun _ => []) 200000
        = RunOutcome.noSourceFiles := by
  constructor
  · unfold run_pipeline pipelineAborted
    by_cases he : e = false
    · simp [he]
    · rw [if_neg he]
      by_cases hf : get_code_files walk = []
      · simp [hf, he]
      · simp [hf, he]
  · decide
